import Mathlib

/-!
Verification of the mail-mcp metadata-extraction and quote-stripping core.

Text is modelled as `List Char` (ASCII subset of Python `str`).  Each
definition below is a direct translation of a function in
`src/mail_mcp/extractors/metadata.py`, `src/mail_mcp/extractors/quotes.py`,
`src/mail_mcp/parsers/email_parser.py` or `src/mail_mcp/parsers/mbox_parser.py`.
Regular expressions are translated by hand into explicit scanning functions
following Python `re` leftmost-match backtracking semantics.
-/

/-- Python `str.strip()` / regex `\s` whitespace class, ASCII part. -/
def pyIsSpace (c : Char) : Bool :=
  c = ' ' || c = '\t' || c = '\n' || c = '\r' || c = '\x0b' || c = '\x0c'

/-- ASCII decimal digit, the regex class `\d` (ASCII part). -/
def isAsciiDigit (c : Char) : Bool :=
  '0' ≤ c && c ≤ '9'

/-- The regex word-character class `\w` used by `\b` boundaries (ASCII part). -/
def isWordChar (c : Char) : Bool :=
  isAsciiDigit c || ('a' ≤ c && c ≤ 'z') || ('A' ≤ c && c ≤ 'Z') || c = '_'

/-- Case-insensitive "pattern is a literal prefix here": the pattern is given
lower-case and the text is lowered before comparison (`re.IGNORECASE`). -/
def startsWithCI (pat s : List Char) : Bool :=
  pat.isPrefixOf (s.map Char.toLower)

/-- Python `str.strip()`: drop whitespace from both ends. -/
def pyStrip (s : List Char) : List Char :=
  ((s.dropWhile pyIsSpace).reverse.dropWhile pyIsSpace).reverse

/-- Python `str.rstrip()`: drop whitespace from the right end. -/
def pyRstrip (s : List Char) : List Char :=
  (s.reverse.dropWhile pyIsSpace).reverse

/-- Python `text.split('\n')`: note `"".split('\n') == [""]`. -/
def splitLines : List Char → List (List Char)
  | [] => [[]]
  | c :: rest =>
    if c = '\n' then [] :: splitLines rest
    else
      match splitLines rest with
      | [] => [[c]]
      | l :: ls => (c :: l) :: ls

/-- Python `'\n'.join(lines)`. -/
def joinLines : List (List Char) → List Char
  | [] => []
  | [l] => l
  | l :: l' :: ls => l ++ '\n' :: joinLines (l' :: ls)

/-! ### Quote & signature detector (`extractors/quotes.py`) -/

/-- `QUOTE_PREFIX_PATTERN = ^[\s]*[>|]+[\s]*` matched at the line start:
holds iff the first non-whitespace character is `>` or `|`. -/
def quotePrefixMatch (ln : List Char) : Bool :=
  match ln.dropWhile pyIsSpace with
  | [] => false
  | c :: _ => c = '>' || c = '|'

/-- Alternative `On\s+.+?\s+wrote:` of `ATTRIBUTION_PATTERN`, anchored at the
line start (lines carry no newline, so `.` is any character). -/
def altOn (ln : List Char) : Bool :=
  startsWithCI "on".data ln &&
  (let rest := ln.drop 2
   (rest.head?.any pyIsSpace) &&
   (List.range rest.length).any (fun p =>
     decide (3 ≤ p) && (rest[p-1]?.any pyIsSpace) &&
       startsWithCI "wrote:".data (rest.drop p)))

/-- Alternative `.+?\s+wrote:` of `ATTRIBUTION_PATTERN`: some occurrence of
`wrote:` preceded by a whitespace character that is not the first character. -/
def altWrote (ln : List Char) : Bool :=
  (List.range ln.length).any (fun p =>
    decide (2 ≤ p) && (ln[p-1]?.any pyIsSpace) &&
      startsWithCI "wrote:".data (ln.drop p))

/-- Alternative `From:.+?$`: the line starts with `From:` (case-insensitive)
followed by at least one character. -/
def altFrom (ln : List Char) : Bool :=
  startsWithCI "from:".data ln && decide (6 ≤ ln.length)

/-- Alternative `Sent:.+?$`. -/
def altSent (ln : List Char) : Bool :=
  startsWithCI "sent:".data ln && decide (6 ≤ ln.length)

/-- `ATTRIBUTION_PATTERN.match(line)` for a single (newline-free) line. -/
def attributionMatch (ln : List Char) : Bool :=
  altOn ln || altWrote ln || altFrom ln || altSent ln

/-- `QuoteDetector.is_quote_line`. -/
def is_quote_line (ln : List Char) : Bool :=
  if pyStrip ln = [] then false
  else quotePrefixMatch ln || attributionMatch ln

/-- One alternative of `SIGNATURE_MARKER_PATTERN` matching at the start of a
single line: `^--\s*$`, `^___+\s*$`, `^Best regards`, `^Regards`, `^Cheers`
or `^Thanks` (case-insensitive, MULTILINE). -/
def signatureMarkerAt (ln : List Char) : Bool :=
  (match ln with
   | '-' :: '-' :: rest => rest.all pyIsSpace
   | _ => false) ||
  (let us := ln.takeWhile (fun c => c = '_')
   decide (3 ≤ us.length) && (ln.drop us.length).all pyIsSpace) ||
  startsWithCI "best regards".data ln ||
  startsWithCI "regards".data ln ||
  startsWithCI "cheers".data ln ||
  startsWithCI "thanks".data ln

/-- `QuoteDetector.remove_signature`: truncate at the start of the first line
matching the signature pattern, then `rstrip`. -/
def remove_signature (text : List Char) : List Char :=
  let ls := splitLines text
  match ls.findIdx? signatureMarkerAt with
  | some i => pyRstrip (joinLines (ls.take i))
  | none => text

/-- Emit a run of `n` pending newlines after `re.sub(r'\n{3,}', '\n\n', ·)`. -/
def emitRun (n : Nat) : List Char :=
  if 3 ≤ n then ['\n', '\n'] else List.replicate n '\n'

/-- Scanner for `re.sub(r'\n{3,}', '\n\n', ·)`; `n` counts pending newlines. -/
def collapseAux (n : Nat) : List Char → List Char
  | [] => emitRun n
  | c :: rest =>
    if c = '\n' then collapseAux (n + 1) rest
    else emitRun n ++ c :: collapseAux 0 rest

/-- `re.sub(r'\n{3,}', '\n\n', s)`: collapse runs of three or more newlines. -/
def collapseNewlines (s : List Char) : List Char :=
  collapseAux 0 s

/-- `QuoteDetector.extract_effective_content`. -/
def extract_effective_content (text : List Char) : List Char :=
  let t := remove_signature text
  let lines := splitLines t
  let effective := lines.filter (fun l => !is_quote_line l)
  pyStrip (collapseNewlines (joinLines effective))

/-- Result record of `QuoteDetector.analyze` (floats modelled as `ℚ`). -/
structure QuoteAnalysis where
  total_lines : Nat
  quoted_lines : Nat
  effective_lines : Nat
  quote_percentage : ℚ
  body_effective : List Char
deriving Repr, DecidableEq

/-- `QuoteDetector.analyze`. -/
def analyze (text : List Char) : QuoteAnalysis :=
  let lines := splitLines text
  let total := lines.length
  let quoted := (lines.filter is_quote_line).length
  let eff := extract_effective_content text
  { total_lines := total
    quoted_lines := quoted
    effective_lines := (splitLines eff).length
    quote_percentage := if 0 < total then (quoted : ℚ) / total else 0
    body_effective := eff }

/-- `QuoteDetector.is_mostly_quoted` with threshold `th`
(`quote_threshold` defaults to `0.8`). -/
def is_mostly_quoted (th : ℚ) (text : List Char) : Bool :=
  decide (th < (analyze text).quote_percentage)

/-! ### Metadata extractor (`extractors/metadata.py`) -/

/-- `[+-]` of `VOTE_VALUE_PATTERN`. -/
def isVoteSign (c : Char) : Bool :=
  c = '+' || c = '-'

/-- `[01]` of `VOTE_VALUE_PATTERN`. -/
def isVoteDigit (c : Char) : Bool :=
  c = '0' || c = '1'

/-- Left context of a vote token: start of text, or (MULTILINE `^` /
preceding `\s`, which coincide since `\n` is whitespace) a whitespace
character. `none` encodes "no preceding character". -/
def voteBoundary (prev : Option Char) : Bool :=
  prev.all pyIsSpace

/-- Right context `(?:\s|$)` after the two token characters. -/
def voteRight : List Char → Bool
  | [] => true
  | c :: _ => pyIsSpace c

/-- Left-to-right scan of `VOTE_VALUE_PATTERN.search`, carrying the previous
character; returns the first captured token. -/
def voteSearch : Option Char → List Char → Option (List Char)
  | _, [] => none
  | prev, c :: rest =>
    match rest with
    | [] => none
    | d :: rest2 =>
      if voteBoundary prev && isVoteSign c && isVoteDigit d && voteRight rest2
      then some [c, d]
      else voteSearch (some c) (d :: rest2)

/-- One scanning step of `VOTE_PATTERN.search` (alternation
`\[VOTE\]|\[RESULT\]`, case-insensitive) at a fixed position. -/
def voteMarkerHere (s : List Char) : Bool :=
  startsWithCI "[vote]".data s || startsWithCI "[result]".data s

/-- `VOTE_PATTERN.search` as a Boolean: does any position match. -/
def voteMarkerSearch : List Char → Bool
  | [] => false
  | c :: rest => voteMarkerHere (c :: rest) || voteMarkerSearch rest

/-- `MetadataExtractor.extract_vote_info`. -/
def extract_vote_info (text : List Char) : Bool × Option (List Char) :=
  (voteMarkerSearch text, voteSearch none text)

/-- Was the captured token matched at position `j` of the text: the claim's
"bounded by start-of-line/whitespace on the left and whitespace/end-of-line
on the right" reading of `VOTE_VALUE_PATTERN`. -/
def voteTokenAt (text : List Char) (j : Nat) : Bool :=
  (decide (j = 0) || (text[j-1]?.any pyIsSpace)) &&
  (text[j]?.any isVoteSign) &&
  (text[j+1]?.any isVoteDigit) &&
  (text[j+2]?.all pyIsSpace)

/-- Specification-side reading of `vote_value`: the token at the first
(top-to-bottom) matching position, if any. -/
def voteValueSpec (text : List Char) : Option (List Char) :=
  ((List.range text.length).find? (voteTokenAt text)).map
    (fun j => (text.drop j).take 2)

/-- Value of a digit string (`int(s)` on an all-digit string). -/
def digitsToNat (s : List Char) : Nat :=
  s.foldl (fun acc c => acc * 10 + (c.toNat - '0'.toNat)) 0

/-- Length of the leading ASCII digit run (a greedy `\d+` / `\d*`). -/
def digitRun (s : List Char) : Nat :=
  (s.takeWhile isAsciiDigit).length

/-- A `\b` boundary placed after a word character: the next character must be
absent or a non-word character. -/
def nonWordHere : List Char → Bool
  | [] => true
  | c :: _ => !isWordChar c

/-- Suffix keywords of `VERSION_PATTERN`, in the alternation's order
(`alpha|beta|rc|SNAPSHOT|M`, case-insensitive; first letters are distinct,
so at most one alternative can match at a given position). -/
def versionKeywords : List (List Char) :=
  ["alpha".data, "beta".data, "rc".data, "snapshot".data, "m".data]

/-- Keyword match at this position: length of the keyword consumed. -/
def keywordHere (s : List Char) : Option Nat :=
  (versionKeywords.find? (fun kw => startsWithCI kw s)).map List.length

/-- Optional group `(?:-\d+)?` followed by the final `\b`: number of extra
characters consumed, `none` if every backtracking alternative fails.
Greedy digit runs never backtrack usefully here (shrinking a `\d+`/`\d*`
leaves a digit as the next character, which fails both `-` literals and the
final `\b`), so only group presence/absence is explored, present first. -/
def tryE (s : List Char) : Option Nat :=
  match s with
  | '-' :: rest =>
    let e := digitRun rest
    if 0 < e && nonWordHere (rest.drop e) then some (1 + e)
    else if nonWordHere s then some 0 else none
  | _ => if nonWordHere s then some 0 else none

/-- Optional group `(?:-(?:alpha|beta|rc|SNAPSHOT|M)\d*)?` then `tryE`. -/
def tryD (s : List Char) : Option Nat :=
  match s with
  | '-' :: rest =>
    (match keywordHere rest with
     | some k =>
       let d := digitRun (rest.drop k)
       (match tryE (rest.drop (k + d)) with
        | some e => some (1 + k + d + e)
        | none => tryE s)
     | none => tryE s)
  | _ => tryE s

/-- Optional group `(?:\.\d+)?` then `tryD`. -/
def tryC (s : List Char) : Option Nat :=
  match s with
  | '.' :: rest =>
    let c := digitRun rest
    if 0 < c then
      (match tryD (rest.drop c) with
       | some d => some (1 + c + d)
       | none => tryD s)
    else tryD s
  | _ => tryD s

/-- Attempt of `VERSION_PATTERN` at one position (the initial `\b` has been
checked by the caller): total match length `\d+\.\d+` plus optional groups. -/
def matchVersion (s : List Char) : Option Nat :=
  let a := digitRun s
  if a = 0 then none
  else
    match s.drop a with
    | '.' :: rest =>
      let b := digitRun rest
      if b = 0 then none
      else
        (match tryC (rest.drop b) with
         | some k => some (a + 1 + b + k)
         | none => none)
    | _ => none

/-- `VERSION_PATTERN.findall`: scan every position left to right, emitting
non-overlapping matches and resuming after each one.  `fuel` bounds the
recursion (the scan consumes at least one character per step). -/
def versionScan : Nat → Option Char → List Char → List (List Char)
  | 0, _, _ => []
  | _, _, [] => []
  | fuel + 1, prev, c :: rest =>
    if prev.all (fun p => !isWordChar p) then
      match matchVersion (c :: rest) with
      | some len =>
        ((c :: rest).take len) ::
          versionScan fuel (((c :: rest).take len).getLast?) ((c :: rest).drop len)
      | none => versionScan fuel (some c) rest
    else versionScan fuel (some c) rest

/-- All matches of `VERSION_PATTERN` in the text, in scan order. -/
def versionMatches (text : List Char) : List (List Char) :=
  versionScan text.length none text

/-- The date heuristic of `extract_version_numbers`: keep a match unless
`match.split('.')[0].split('-')[0]` is all digits with value above 31. -/
def pyVersionKeep (m : List Char) : Bool :=
  let parts := (m.takeWhile (fun c => c ≠ '.')).takeWhile (fun c => c ≠ '-')
  !(!parts.isEmpty && parts.all isAsciiDigit && decide (31 < digitsToNat parts))

/-- Lexicographic order on code points: Python string `<=` restricted to the
code-point sequences that model strings here. -/
def lexLe : List Char → List Char → Bool
  | [], _ => true
  | _ :: _, [] => false
  | a :: as, b :: bs =>
    if a.toNat < b.toNat then true
    else if b.toNat < a.toNat then false
    else lexLe as bs

/-- `MetadataExtractor.extract_version_numbers`: findall, dedup (`set`),
filter, `sorted` (lexicographic byte order on strings). -/
def extract_version_numbers (text : List Char) : List (List Char) :=
  List.insertionSort (fun a b => lexLe a b = true)
    (((versionMatches text).dedup).filter pyVersionKeep)

/-- Hexadecimal character class `[0-9a-f]` under `re.IGNORECASE`. -/
def isHexDigit (c : Char) : Bool :=
  isAsciiDigit c || ('a' ≤ c && c ≤ 'f') || ('A' ≤ c && c ≤ 'F')

/-- Maximal runs of word characters in a text, in order.  `\b`-delimited
matching of `GITHUB_COMMIT_PATTERN` can only ever match such a whole run. -/
def wordRuns : List Char → List (List Char)
  | [] => []
  | c :: rest =>
    if isWordChar c then
      match rest with
      | [] => [[c]]
      | d :: t =>
        if isWordChar d then
          match wordRuns (d :: t) with
          | r :: rs => (c :: r) :: rs
          | [] => [[c]]
        else [c] :: wordRuns (d :: t)
    else wordRuns rest

/-- `GITHUB_COMMIT_PATTERN.findall`: the maximal word runs that consist
entirely of hex characters with length between 7 and 40 (runs containing a
non-hex word character, or of other lengths, never satisfy both `\b`s). -/
def commitMatches (text : List Char) : List (List Char) :=
  (wordRuns text).filter
    (fun r => r.all isHexDigit && decide (7 ≤ r.length) && decide (r.length ≤ 40))

/-- The exclusion test of `extract_github_commit_references`:
`match.lower() not in ('ffffff', 'deadbeef', '0000000')`. -/
def commitKeep (m : List Char) : Bool :=
  decide (7 ≤ m.length) && decide (m.length ≤ 40) &&
  !(["ffffff".data, "deadbeef".data, "0000000".data].contains (m.map Char.toLower))

/-- `MetadataExtractor.extract_github_commit_references`: findall, length and
exclusion filter, then `list(set(...))` (modelled as dedup). -/
def extract_github_commit_references (text : List Char) : List (List Char) :=
  ((commitMatches text).filter commitKeep).dedup

/-! ### Email parser (`parsers/email_parser.py`) -/

/-- `message.get(name, default)`: first header with this name,
case-insensitively, else the default (headers as name/value pairs). -/
def msgGet (headers : List (List Char × List Char)) (name : List Char)
    (dflt : List Char) : List Char :=
  match headers.find? (fun h => h.1.map Char.toLower = name.map Char.toLower) with
  | some h => h.2
  | none => dflt

/-- Whether some header with this name is present (case-insensitive). -/
def msgHas (headers : List (List Char × List Char)) (name : List Char) : Bool :=
  (headers.find? (fun h => h.1.map Char.toLower = name.map Char.toLower)).isSome

/-- The subject line assembled by `EmailParser.parse`:
`message.get("Subject", "(No subject)")`. -/
def subjectOf (headers : List (List Char × List Char)) : List Char :=
  msgGet headers "Subject".data "(No subject)".data

/-- Message-ID synthesis of `EmailParser.parse`.  `pyHash` stands for the
process's builtin `hash` on the serialized message (`hash(str)` is salted
per interpreter process by PYTHONHASHSEED, so it is an additional input, not
a constant of the program). -/
def synthMessageId (pyHash : List Char → Int)
    (headers : List (List Char × List Char)) (serialized : List Char) :
    List Char :=
  let mid := pyStrip (msgGet headers "Message-ID".data [])
  if mid = [] then
    "<no-message-id-".data ++ (toString (pyHash serialized)).data ++ ['>']
  else mid

/-- MIME message tree: a non-multipart message, or a multipart container.
`ctype` is `get_content_type()`, `disp` is `get_content_disposition()`. -/
inductive MimePart where
  | leaf (ctype : String) (disp : Option String) : MimePart
  | multi (ctype : String) (disp : Option String) (parts : List MimePart) : MimePart
deriving Repr

/-- `Message.is_multipart()`. -/
def MimePart.isMultipart : MimePart → Bool
  | .leaf _ _ => false
  | .multi _ _ _ => true

/-- `get_content_type()` of the root. -/
def MimePart.ctype : MimePart → String
  | .leaf t _ => t
  | .multi t _ _ => t

/-- `get_content_disposition()` of the root. -/
def MimePart.disp : MimePart → Option String
  | .leaf _ d => d
  | .multi _ d _ => d

mutual

/-- `Message.walk()`: the part itself, then all subparts, depth first. -/
def MimePart.walk : MimePart → List MimePart
  | .leaf t d => [.leaf t d]
  | .multi t d ps => .multi t d ps :: walkList ps

/-- `walk` mapped over a list of subparts. -/
def walkList : List MimePart → List MimePart
  | [] => []
  | p :: ps => p.walk ++ walkList ps

end

/-- Content types not counted as attachments by `has_attachments`. -/
def plainContentTypes : List String :=
  ["text/plain", "text/html", "multipart/alternative", "multipart/mixed"]

/-- The per-part test of the `has_attachments` loop. -/
def partFlagsAttachment (p : MimePart) : Bool :=
  p.disp = some "attachment" || !(plainContentTypes.contains p.ctype)

/-- `EmailParser.has_attachments`: `False` for any non-multipart message,
otherwise the early-exit loop over `walk()`. -/
def has_attachments (m : MimePart) : Bool :=
  if !m.isMultipart then false
  else m.walk.any partFlagsAttachment

/-! ### Mbox batch driver (`parsers/mbox_parser.py`) -/

/-- Counters and yielded records of one `MboxParser.parse_file` run. -/
structure MboxRun (R : Type) where
  records : List R
  messagesParsed : Nat
  errors : Nat
deriving Repr, DecidableEq

/-- The per-message loop of `parse_file`: each message is normalized inside
`try/except Exception`; failures are counted and skipped, successes counted
and yielded, in order. -/
def processMessages {M E R : Type} (norm : M → Except E R) :
    List M → MboxRun R
  | [] => ⟨[], 0, 0⟩
  | m :: ms =>
    let rest := processMessages norm ms
    match norm m with
    | .ok r => ⟨r :: rest.records, rest.messagesParsed + 1, rest.errors⟩
    | .error _ => ⟨rest.records, rest.messagesParsed, rest.errors + 1⟩

/-- The batch-fatal error of `parse_file` (`FileNotFoundError`). -/
inductive MboxError where
  | fileNotFound : MboxError
deriving Repr, DecidableEq

/-- `MboxParser.parse_file`: a missing mailbox (`none`) raises
`FileNotFoundError` before any message is read; an existing mailbox is the
list of its raw messages, processed with per-message error recovery. -/
def parse_file {M E R : Type} (norm : M → Except E R)
    (mbox : Option (List M)) : Except MboxError (MboxRun R) :=
  match mbox with
  | none => .error .fileNotFound
  | some msgs => .ok (processMessages norm msgs)

/-- "No run of three or more newlines": scanning state `n` counts the
newlines of the current run. -/
def runsOk (n : Nat) : List Char → Bool
  | [] => decide (n ≤ 2)
  | c :: rest =>
    if c = '\n' then runsOk (n + 1) rest
    else decide (n ≤ 2) && runsOk 0 rest

/-- The claim's reading of attachment detection: some part (the message
itself included) carries an attachment disposition or a content type outside
the allowed set, with no multipart requirement. -/
def specHasAttachment (m : MimePart) : Bool :=
  m.walk.any partFlagsAttachment

/-- Case-insensitive suffix test (for the claim's "ends in `... wrote:`"). -/
def endsWithCI (pat s : List Char) : Bool :=
  pat.isSuffixOf (s.map Char.toLower)

/-- The claim's reading of `is_quote_line`: non-blank, and either a `>`/`|`
prefix after leading whitespace, or an attribution read as: begins with
`On ... wrote:`, ends in `... wrote:`, or is a `From:`/`Sent:` header echo
(case-insensitive). -/
def claimQuoteLine (ln : List Char) : Bool :=
  !(pyStrip ln).isEmpty &&
  (quotePrefixMatch ln ||
   (altOn ln ||
    endsWithCI "wrote:".data ln ||
    startsWithCI "from:".data ln ||
    startsWithCI "sent:".data ln))

/-! ### Claim C1: vote extraction -/

theorem splitLines_ne_nil (s : List Char) : splitLines s ≠ [] := by
  cases s with
  | nil => simp [splitLines]
  | cons c rest =>
    unfold splitLines
    by_cases h : c = '\n'
    · simp [h]
    · simp only [if_neg h]
      cases hrest : splitLines rest with
      | nil => simp
      | cons l ls => simp

theorem joinLines_splitLines (s : List Char) : joinLines (splitLines s) = s := by
  induction s with
  | nil => rfl
  | cons c rest ih =>
    cases hrest : splitLines rest with
    | nil => exact absurd hrest (splitLines_ne_nil rest)
    | cons l ls =>
      rw [hrest] at ih
      by_cases h : c = '\n'
      · subst h
        have hs : splitLines ('\n' :: rest) = [] :: l :: ls := by
          simp [splitLines, hrest]
        rw [hs]
        show [] ++ '\n' :: joinLines (l :: ls) = '\n' :: rest
        rw [ih]; rfl
      · have hs : splitLines (c :: rest) = (c :: l) :: ls := by
          simp [splitLines, h, hrest]
        rw [hs]
        cases ls with
        | nil =>
          simp only [joinLines] at ih ⊢
          rw [ih]
        | cons l' ls' =>
          show (c :: l) ++ '\n' :: joinLines (l' :: ls') = c :: rest
          have hj : joinLines (l :: l' :: ls') = l ++ '\n' :: joinLines (l' :: ls') := rfl
          rw [hj] at ih
          rw [← ih]; rfl

theorem getElem?_append_self (u s : List Char) : (u ++ s)[u.length]? = s[0]? := by
  rw [List.getElem?_append_right (Nat.le_refl _)]
  simp

theorem getElem?_append_add_one (u s : List Char) :
    (u ++ s)[u.length + 1]? = s[1]? := by
  rw [List.getElem?_append_right (Nat.le_add_right _ _)]
  simp

theorem getElem?_append_add_two (u s : List Char) :
    (u ++ s)[u.length + 2]? = s[2]? := by
  rw [List.getElem?_append_right (Nat.le_add_right _ _)]
  simp

theorem voteTokenAt_append (u : List Char) (c d : Char) (rest2 : List Char) :
    voteTokenAt (u ++ c :: d :: rest2) u.length =
      (voteBoundary u.getLast? && isVoteSign c && isVoteDigit d &&
        voteRight rest2) := by
  unfold voteTokenAt voteBoundary voteRight
  have h0 : (u ++ c :: d :: rest2)[u.length]? = some c := by
    rw [getElem?_append_self]; rfl
  have h1 : (u ++ c :: d :: rest2)[u.length + 1]? = some d := by
    rw [getElem?_append_add_one]; simp
  have h2 : (u ++ c :: d :: rest2)[u.length + 2]? = rest2[0]? := by
    rw [getElem?_append_add_two]; simp
  rw [h0, h1, h2]
  cases u with
  | nil =>
    simp only [List.length_nil, List.getLast?_nil]
    cases rest2 with
    | nil => simp
    | cons e t => simp
  | cons a u' =>
    have hne : (a :: u').length ≠ 0 := by simp
    have hlt : (a :: u').length - 1 < (a :: u').length := by
      simp [Nat.sub_lt]
    have hget : ((a :: u') ++ c :: d :: rest2)[(a :: u').length - 1]? =
        (a :: u')[(a :: u').length - 1]? := by
      rw [List.getElem?_append]
      simp [hlt]
    rw [hget, ← List.getLast?_eq_getElem?]
    obtain ⟨b, hb⟩ : ∃ b, (a :: u').getLast? = some b :=
      ⟨(a :: u').getLast (by simp), List.getLast?_eq_getLast _ _⟩
    rw [hb]
    simp [hne]
    cases rest2 with
    | nil => simp
    | cons e t => simp

theorem voteSearch_eq (s : List Char) : ∀ (u : List Char),
    voteSearch u.getLast? s =
      ((List.range' u.length s.length).find? (voteTokenAt (u ++ s))).map
        (fun j => ((u ++ s).drop j).take 2) := by
  induction s with
  | nil => intro u; simp [voteSearch]
  | cons c rest ih =>
    intro u
    cases rest with
    | nil =>
      have htok : voteTokenAt (u ++ [c]) u.length = false := by
        unfold voteTokenAt
        have h1 : (u ++ [c])[u.length + 1]? = ([c] : List Char)[1]? :=
          getElem?_append_add_one u [c]
        rw [h1]
        simp
      simp only [voteSearch, List.length_cons, List.length_nil]
      rw [show List.range' u.length (0 + 1) = [u.length] from rfl]
      rw [List.find?_cons_of_neg _ (by simp [htok]), List.find?_nil]
      rfl
    | cons d rest2 =>
      have hlen : (c :: d :: rest2).length = rest2.length + 1 + 1 := by
        simp [Nat.add_comm]
      have hsplit : List.range' u.length (c :: d :: rest2).length =
          u.length :: List.range' (u.length + 1) (rest2.length + 1) := by
        rw [hlen, List.range'_succ]
      have happ : (u ++ [c]) ++ (d :: rest2) = u ++ c :: d :: rest2 := by
        simp
      have htok := voteTokenAt_append u c d rest2
      by_cases hcond :
          (voteBoundary u.getLast? && isVoteSign c && isVoteDigit d &&
            voteRight rest2) = true
      · have : voteSearch u.getLast? (c :: d :: rest2) = some [c, d] := by
          simp only [voteSearch]
          rw [if_pos hcond]
        rw [this, hsplit, List.find?_cons_of_pos _ (by rw [htok]; exact hcond)]
        have hdrop : (u ++ c :: d :: rest2).drop u.length = c :: d :: rest2 :=
          List.drop_left ..
        show some [c, d] = some (((u ++ c :: d :: rest2).drop u.length).take 2)
        rw [hdrop]
        rfl
      · have hstep : voteSearch u.getLast? (c :: d :: rest2) =
            voteSearch (some c) (d :: rest2) := by
          simp only [voteSearch]
          rw [if_neg hcond]
        have hlast : (u ++ [c]).getLast? = some c := List.getLast?_concat ..
        have := ih (u ++ [c])
        rw [hlast] at this
        rw [hstep, this, hsplit,
          List.find?_cons_of_neg _ (by rw [htok]; simpa using hcond)]
        rw [happ]
        simp [Nat.add_comm]

theorem voteSearch_spec (text : List Char) :
    voteSearch none text = voteValueSpec text := by
  have := voteSearch_eq text []
  simp only [List.getLast?_nil, List.length_nil, List.nil_append] at this
  rw [this]
  unfold voteValueSpec
  rw [List.range_eq_range']

theorem voteMarkerSearch_iff (s : List Char) :
    voteMarkerSearch s = true ↔ ∃ i, voteMarkerHere (s.drop i) = true := by
  induction s with
  | nil =>
    constructor
    · intro h; exact absurd h (by simp [voteMarkerSearch])
    · rintro ⟨i, hi⟩
      rw [List.drop_nil] at hi
      exact absurd hi (by decide)
  | cons c rest ih =>
    simp only [voteMarkerSearch, Bool.or_eq_true]
    constructor
    · rintro (h | h)
      · exact ⟨0, h⟩
      · obtain ⟨i, hi⟩ := ih.mp h
        exact ⟨i + 1, hi⟩
    · rintro ⟨i, hi⟩
      cases i with
      | zero => exact Or.inl hi
      | succ i => exact Or.inr (ih.mpr ⟨i, hi⟩)

/-- **C1**: `extract_vote_info` reports `has_vote` iff the text contains a
`[VOTE]` or `[RESULT]` marker (case-insensitive), and, independently of the
marker, `vote_value` is the token at the first position (top-to-bottom)
where one of `+1`, `-1`, `+0`, `-0` occurs bounded by start-of-line/whitespace on the
left and whitespace/end-of-line on the right; on the spec's scenario it
yields `(true, "-1")`. -/
theorem claim_extract_vote_info :
    (∀ text : List Char,
      ((extract_vote_info text).1 = true ↔
        ((∃ i, startsWithCI "[vote]".data (text.drop i) = true) ∨
         (∃ i, startsWithCI "[result]".data (text.drop i) = true))) ∧
      (extract_vote_info text).2 = voteValueSpec text) ∧
    extract_vote_info "[VOTE] Release\n-1 tests failing".data =
      (true, some "-1".data) := by
  constructor
  · intro text
    constructor
    · show voteMarkerSearch text = true ↔ _
      rw [voteMarkerSearch_iff]
      unfold voteMarkerHere
      constructor
      · rintro ⟨i, hi⟩
        rcases Bool.or_eq_true _ _ |>.mp hi with h | h
        · exact Or.inl ⟨i, h⟩
        · exact Or.inr ⟨i, h⟩
      · rintro (⟨i, hi⟩ | ⟨i, hi⟩)
        · exact ⟨i, by simp [hi]⟩
        · exact ⟨i, by simp [hi]⟩
    · exact voteSearch_spec text
  · decide

/-! ### Claim C2: version-number extraction -/

theorem lexLe_total : ∀ a b : List Char, lexLe a b = true ∨ lexLe b a = true
  | [], _ => Or.inl rfl
  | _ :: _, [] => Or.inr rfl
  | a :: as, b :: bs => by
    unfold lexLe
    rcases Nat.lt_trichotomy a.toNat b.toNat with h | h | h
    · left; simp [h]
    · have h1 : ¬a.toNat < b.toNat := by omega
      have h2 : ¬b.toNat < a.toNat := by omega
      rcases lexLe_total as bs with ih | ih
      · left; simp [h1, h2, ih]
      · right; simp [h1, h2, ih]
    · right; simp [h]

theorem lexLe_trans : ∀ a b c : List Char,
    lexLe a b = true → lexLe b c = true → lexLe a c = true
  | [], _, _, _, _ => rfl
  | _ :: _, [], _, h, _ => by simp [lexLe] at h
  | _ :: _, _ :: _, [], _, h2 => by simp [lexLe] at h2
  | a :: as, b :: bs, c :: cs, h1, h2 => by
    unfold lexLe at h1 h2 ⊢
    by_cases hab : a.toNat < b.toNat
    · by_cases hbc : b.toNat < c.toNat
      · simp [show a.toNat < c.toNat by omega]
      · simp only [if_pos hab] at h1
        by_cases hcb : c.toNat < b.toNat
        · simp [hcb] at h2; omega
        · have hbceq : b.toNat = c.toNat := by omega
          simp [show a.toNat < c.toNat by omega]
    · by_cases hba : b.toNat < a.toNat
      · simp [hab, hba] at h1
      · have habeq : a.toNat = b.toNat := by omega
        simp only [if_neg hab, if_neg hba] at h1
        by_cases hbc : b.toNat < c.toNat
        · simp [show a.toNat < c.toNat by omega]
        · by_cases hcb : c.toNat < b.toNat
          · simp [hcb] at h2; omega
          · simp only [if_neg hbc, if_neg hcb] at h2
            have h3 : ¬a.toNat < c.toNat := by omega
            have h4 : ¬c.toNat < a.toNat := by omega
            simp [h3, h4, lexLe_trans as bs cs h1 h2]

instance instLexLeIsTotal : IsTotal (List Char) (fun a b => lexLe a b = true) :=
  ⟨lexLe_total⟩

instance instLexLeIsTrans : IsTrans (List Char) (fun a b => lexLe a b = true) :=
  ⟨lexLe_trans⟩

theorem take_digitRun (s : List Char) :
    s.take (digitRun s) = s.takeWhile isAsciiDigit := by
  have h : s.takeWhile isAsciiDigit ++ s.dropWhile isAsciiDigit = s :=
    List.takeWhile_append_dropWhile ..
  calc s.take (digitRun s)
      = (s.takeWhile isAsciiDigit ++ s.dropWhile isAsciiDigit).take
          (s.takeWhile isAsciiDigit).length := by
        rw [h]; rfl
    _ = s.takeWhile isAsciiDigit := List.take_left ..

theorem matchVersion_structure {s : List Char} {len : Nat}
    (h : matchVersion s = some len) :
    ∃ rest, s.take len = s.takeWhile isAsciiDigit ++ '.' :: rest ∧
      s.takeWhile isAsciiDigit ≠ [] := by
  unfold matchVersion at h
  by_cases ha : digitRun s = 0
  · simp [ha] at h
  · simp only [if_neg ha] at h
    cases hdrop : s.drop (digitRun s) with
    | nil => rw [hdrop] at h; simp at h
    | cons x rest =>
      rw [hdrop] at h
      by_cases hx : x = '.'
      · subst hx
        by_cases hb : digitRun rest = 0
        · simp [hb] at h
        · simp only [if_neg hb] at h
          cases htc : tryC (rest.drop (digitRun rest)) with
          | none => rw [htc] at h; simp at h
          | some k =>
            rw [htc] at h
            simp only [Option.some_inj] at h
            subst h
            refine ⟨rest.take (digitRun rest + k), ?_, ?_⟩
            · rw [show digitRun s + 1 + digitRun rest + k =
                digitRun s + (digitRun rest + k + 1) by omega]
              rw [List.take_add, take_digitRun, hdrop]
              rfl
            · intro hnil
              unfold digitRun at ha
              rw [hnil] at ha
              exact ha rfl
      · exfalso
        revert h
        simp [hx]

theorem takeWhile_append_all {q : Char → Bool} :
    ∀ (l t : List Char), (∀ c ∈ l, q c = true) →
      (l ++ t).takeWhile q = l ++ t.takeWhile q
  | [], _, _ => rfl
  | c :: l, t, h => by
    have hc : q c = true := h c (List.mem_cons_self ..)
    simp only [List.cons_append, List.takeWhile_cons, hc, if_true]
    rw [takeWhile_append_all l t (fun d hd => h d (List.mem_cons_of_mem _ hd))]

theorem takeWhile_eq_self_of_all {q : Char → Bool} :
    ∀ (l : List Char), (∀ c ∈ l, q c = true) → l.takeWhile q = l
  | [], _ => rfl
  | c :: l, h => by
    have hc : q c = true := h c (List.mem_cons_self ..)
    simp only [List.takeWhile_cons, hc, if_true]
    rw [takeWhile_eq_self_of_all l (fun d hd => h d (List.mem_cons_of_mem _ hd))]

theorem versionScan_mem :
    ∀ (fuel : Nat) (prev : Option Char) (s m : List Char),
      m ∈ versionScan fuel prev s →
        ∃ s' len, matchVersion s' = some len ∧ m = s'.take len := by
  intro fuel
  induction fuel with
  | zero => intro prev s m h; simp [versionScan] at h
  | succ fuel ih =>
    intro prev s m h
    cases s with
    | nil => simp [versionScan] at h
    | cons c rest =>
      simp only [versionScan] at h
      by_cases hb : (prev.all fun p => !isWordChar p) = true
      · rw [if_pos hb] at h
        cases hm : matchVersion (c :: rest) with
        | some len =>
          rw [hm] at h
          rcases List.mem_cons.mp h with h | h
          · exact ⟨c :: rest, len, hm, h⟩
          · exact ih _ _ _ h
        | none =>
          rw [hm] at h
          exact ih _ _ _ h
      · rw [if_neg hb] at h
        exact ih _ _ _ h

theorem digit_ne_dot {c : Char} (h : isAsciiDigit c = true) : c ≠ '.' := by
  intro he; subst he; exact absurd h (by decide)

theorem digit_ne_dash {c : Char} (h : isAsciiDigit c = true) : c ≠ '-' := by
  intro he; subst he; exact absurd h (by decide)

theorem versionMatches_keep_iff {text m : List Char} (h : m ∈ versionMatches text) :
    pyVersionKeep m = true ↔
      digitsToNat (m.takeWhile (fun c => c ≠ '.')) ≤ 31 := by
  obtain ⟨s', len, hm, rfl⟩ := versionScan_mem _ _ _ _ h
  obtain ⟨rest, heq, hne⟩ := matchVersion_structure hm
  rw [heq]
  have hds : ∀ c ∈ s'.takeWhile isAsciiDigit, isAsciiDigit c = true :=
    fun c hc => List.mem_takeWhile_imp hc
  have h1 : (s'.takeWhile isAsciiDigit ++ '.' :: rest).takeWhile
      (fun c => c ≠ '.') = s'.takeWhile isAsciiDigit := by
    rw [takeWhile_append_all _ _
      (fun c hc => by simpa using digit_ne_dot (hds c hc))]
    simp
  have h2 : (s'.takeWhile isAsciiDigit).takeWhile (fun c => c ≠ '-') =
      s'.takeWhile isAsciiDigit :=
    takeWhile_eq_self_of_all _
      (fun c hc => by simpa using digit_ne_dash (hds c hc))
  unfold pyVersionKeep
  rw [h1, h2]
  have h3 : (s'.takeWhile isAsciiDigit).isEmpty = false := by
    cases hk : s'.takeWhile isAsciiDigit with
    | nil => exact absurd hk hne
    | cons a t => rfl
  have h4 : (s'.takeWhile isAsciiDigit).all isAsciiDigit = true :=
    List.all_eq_true.mpr hds
  show (!(!(s'.takeWhile isAsciiDigit).isEmpty &&
      (s'.takeWhile isAsciiDigit).all isAsciiDigit &&
      decide (31 < digitsToNat (s'.takeWhile isAsciiDigit)))) = true ↔
    digitsToNat (s'.takeWhile isAsciiDigit) ≤ 31
  rw [h3, h4]
  simp

/-- **C2**: `extract_version_numbers` returns, without duplicates and in
lexicographic (code-point) sort order, exactly the `VERSION_PATTERN` matches
whose first dot-component read as an integer does not exceed 31; on the
spec's scenario it yields `["3.8.6", "3.9.5"]`. -/
theorem claim_extract_version_numbers :
    (∀ text : List Char,
      List.Sorted (fun a b => lexLe a b = true) (extract_version_numbers text) ∧
      (extract_version_numbers text).Nodup ∧
      (∀ v : List Char, v ∈ extract_version_numbers text ↔
        v ∈ versionMatches text ∧
        digitsToNat (v.takeWhile (fun c => c ≠ '.')) ≤ 31)) ∧
    extract_version_numbers "Upgrade from 3.8.6 to 3.9.5".data =
      ["3.8.6".data, "3.9.5".data] := by
  constructor
  · intro text
    refine ⟨List.sorted_insertionSort _ _, ?_, ?_⟩
    · exact (List.perm_insertionSort _ _).nodup_iff.mpr
        ((List.nodup_dedup _).filter _)
    · intro v
      unfold extract_version_numbers
      rw [List.Perm.mem_iff (List.perm_insertionSort _ _), List.mem_filter,
        List.mem_dedup]
      constructor
      · rintro ⟨hmem, hkeep⟩
        exact ⟨hmem, (versionMatches_keep_iff hmem).mp hkeep⟩
      · rintro ⟨hmem, hle⟩
        exact ⟨hmem, (versionMatches_keep_iff hmem).mpr hle⟩
  · decide

/-! ### Claim C3: synthesized Message-ID -/

/-- **C3** (code-bug demonstration): for a message whose `Message-ID` header
is absent, the synthesized id is `<no-message-id-{hash}>` where `hash` is
Python's builtin `hash` of the serialized message.  That builtin is salted
per interpreter process (PYTHONHASHSEED), modelled here by passing the
process's hash function as an argument: two processes whose hash functions
differ on the message produce different ids, so the id is not stable across
runs.  The parse itself never fails (the embedding is total by
construction). -/
theorem claim_message_id_hash :
    synthMessageId (fun _ => 0) [] "From: a@b".data =
      "<no-message-id-0>".data ∧
    synthMessageId (fun _ => 1) [] "From: a@b".data =
      "<no-message-id-1>".data ∧
    synthMessageId (fun _ => 0) [] "From: a@b".data ≠
      synthMessageId (fun _ => 1) [] "From: a@b".data := by
  refine ⟨rfl, rfl, ?_⟩
  decide

/-! ### Claim C10: subject fallback -/

/-- **C10**: `parse` sets `subject` to the literal `"(No subject)"` when no
Subject header exists, and keeps a present-but-empty Subject header as the
empty string. -/
theorem claim_subject_fallback :
    ∀ headers : List (List Char × List Char),
      ((∀ h ∈ headers, h.1.map Char.toLower ≠ "subject".data) →
        subjectOf headers = "(No subject)".data) ∧
      (∀ p, headers.find?
          (fun h => h.1.map Char.toLower = "subject".data) = some p →
        p.2 = [] → subjectOf headers = []) := by
  intro headers
  have hname : "Subject".data.map Char.toLower = "subject".data := by decide
  constructor
  · intro habs
    unfold subjectOf msgGet
    simp only [hname]
    cases hf : headers.find? (fun h => h.1.map Char.toLower = "subject".data) with
    | none => rfl
    | some p =>
      have hp := List.find?_some hf
      have hmem := List.mem_of_find?_eq_some hf
      exact absurd (by simpa using hp) (habs p hmem)
  · intro p hf hp2
    unfold subjectOf msgGet
    simp only [hname, hf, hp2]

theorem claim_subject_fallback_witness :
    subjectOf [("From".data, "x@y".data)] = "(No subject)".data ∧
    subjectOf [("Subject".data, [])] = [] := by
  constructor
  · exact (claim_subject_fallback _).1 (by decide)
  · exact (claim_subject_fallback _).2 ("Subject".data, []) (by decide) rfl

/-! ### Claim C9: batch driver error recovery -/

theorem processMessages_spec {M E R : Type} (norm : M → Except E R) :
    ∀ msgs : List M,
      processMessages norm msgs =
        { records := msgs.filterMap (fun m => (norm m).toOption)
          messagesParsed :=
            (msgs.filter (fun m => (norm m).toOption.isSome)).length
          errors :=
            (msgs.filter (fun m => (norm m).toOption.isNone)).length } := by
  intro msgs
  induction msgs with
  | nil => rfl
  | cons m ms ih =>
    cases hn : norm m with
    | ok r =>
      have hstep : processMessages norm (m :: ms) =
          ⟨r :: (processMessages norm ms).records,
            (processMessages norm ms).messagesParsed + 1,
            (processMessages norm ms).errors⟩ := by
        simp only [processMessages, hn]
      rw [hstep, ih]
      simp [List.filterMap_cons, List.filter_cons, hn, Except.toOption]
    | error e =>
      have hstep : processMessages norm (m :: ms) =
          ⟨(processMessages norm ms).records,
            (processMessages norm ms).messagesParsed,
            (processMessages norm ms).errors + 1⟩ := by
        simp only [processMessages, hn]
      rw [hstep, ih]
      simp [List.filterMap_cons, List.filter_cons, hn, Except.toOption]

/-- **C9**: `parse_file` raises `FileNotFoundError` for a missing mailbox
(the batch aborts before any message); for an existing mailbox it never
aborts: it yields exactly the successfully normalized records in order,
counts one parsed message per success and one error per per-message failure,
and continues past every failure. -/
theorem claim_parse_file {M E R : Type} (norm : M → Except E R) :
    parse_file norm none = Except.error MboxError.fileNotFound ∧
    (∀ msgs : List M,
      parse_file norm (some msgs) =
        Except.ok
          { records := msgs.filterMap (fun m => (norm m).toOption)
            messagesParsed :=
              (msgs.filter (fun m => (norm m).toOption.isSome)).length
            errors :=
              (msgs.filter (fun m => (norm m).toOption.isNone)).length }) := by
  refine ⟨rfl, ?_⟩
  intro msgs
  show Except.ok (processMessages norm msgs) = _
  rw [processMessages_spec]

/-! ### Claim C8: attachment detection -/

/-- **C8 counterexample**: a single-part message with content type
`application/pdf` (outside `{text/plain, text/html, multipart/alternative,
multipart/mixed}`) is *not* flagged by `has_attachments`, which returns
`False` for every non-multipart message, while the claim requires it to be
flagged. -/
theorem claim_has_attachment_counterexample :
    has_attachments (MimePart.leaf "application/pdf" none) = false ∧
    specHasAttachment (MimePart.leaf "application/pdf" none) = true := by
  constructor
  · rfl
  · simp [specHasAttachment, MimePart.walk, partFlagsAttachment,
      plainContentTypes, MimePart.disp, MimePart.ctype]

/-- **C8 amended**: `has_attachment` is true iff the message is multipart
AND some walked part carries an attachment content-disposition or has a
content type outside the allowed set; a non-multipart message is never
flagged, whatever its content type. -/
theorem partFlags_iff (p : MimePart) :
    partFlagsAttachment p = true ↔
      (p.disp = some "attachment" ∨ p.ctype ∉ plainContentTypes) := by
  unfold partFlagsAttachment
  rw [Bool.or_eq_true]
  constructor
  · rintro (h | h)
    · exact Or.inl (by simpa using h)
    · right
      intro hmem
      rw [Bool.not_eq_true'] at h
      have : plainContentTypes.contains p.ctype = true := List.elem_iff.mpr hmem
      rw [this] at h
      cases h
  · rintro (h | h)
    · exact Or.inl (by simp [h])
    · right
      have hcon : plainContentTypes.contains p.ctype = false := by
        rw [← Bool.not_eq_true]
        intro hc
        exact h (List.elem_iff.mp hc)
      rw [hcon]
      rfl

theorem claim_has_attachment_amended (m : MimePart) :
    has_attachments m = true ↔
      (m.isMultipart = true ∧
        ∃ p ∈ m.walk,
          (p.disp = some "attachment" ∨ p.ctype ∉ plainContentTypes)) := by
  unfold has_attachments
  cases hm : m.isMultipart with
  | false =>
    show false = true ↔ _
    simp
  | true =>
    show m.walk.any partFlagsAttachment = true ↔ _
    rw [List.any_eq_true]
    constructor
    · rintro ⟨p, hp, hflag⟩
      exact ⟨rfl, p, hp, (partFlags_iff p).mp hflag⟩
    · rintro ⟨-, p, hp, hflag⟩
      exact ⟨p, hp, (partFlags_iff p).mpr hflag⟩

/-! ### Claim C4: record invariants -/

theorem pyRstrip_length_le (s : List Char) : (pyRstrip s).length ≤ s.length := by
  unfold pyRstrip
  calc (s.reverse.dropWhile pyIsSpace).reverse.length
      = (s.reverse.dropWhile pyIsSpace).length := List.length_reverse ..
    _ ≤ s.reverse.length := (List.dropWhile_sublist _).length_le
    _ = s.length := List.length_reverse ..

theorem pyStrip_length_le (s : List Char) : (pyStrip s).length ≤ s.length := by
  unfold pyStrip
  calc ((s.dropWhile pyIsSpace).reverse.dropWhile pyIsSpace).reverse.length
      = ((s.dropWhile pyIsSpace).reverse.dropWhile pyIsSpace).length :=
        List.length_reverse ..
    _ ≤ (s.dropWhile pyIsSpace).reverse.length := (List.dropWhile_sublist _).length_le
    _ = (s.dropWhile pyIsSpace).length := List.length_reverse ..
    _ ≤ s.length := (List.dropWhile_sublist _).length_le

theorem emitRun_length_le (n : Nat) : (emitRun n).length ≤ n := by
  unfold emitRun
  by_cases h : 3 ≤ n
  · rw [if_pos h]; simp; omega
  · rw [if_neg h]; simp

theorem collapseAux_length_le (s : List Char) : ∀ (n : Nat),
    (collapseAux n s).length ≤ n + s.length := by
  induction s with
  | nil =>
    intro n
    simpa [collapseAux] using Nat.le_trans (emitRun_length_le n) (by omega)
  | cons c rest ih =>
    intro n
    unfold collapseAux
    by_cases h : c = '\n'
    · rw [if_pos h]
      have h2 := ih (n + 1)
      simp only [List.length_cons]
      omega
    · rw [if_neg h]
      rw [List.length_append]
      have h1 := emitRun_length_le n
      have h2 := ih 0
      simp only [List.length_cons]
      omega

theorem collapseNewlines_length_le (s : List Char) :
    (collapseNewlines s).length ≤ s.length := by
  have := collapseAux_length_le s 0
  simpa [collapseNewlines] using this

theorem joinLines_length : ∀ ls : List (List Char),
    (joinLines ls).length = (ls.map List.length).sum + (ls.length - 1)
  | [] => rfl
  | [l] => by simp [joinLines]
  | l :: l' :: ls => by
    show (l ++ '\n' :: joinLines (l' :: ls)).length = _
    rw [List.length_append]
    simp only [List.length_cons]
    rw [joinLines_length (l' :: ls)]
    simp only [List.map_cons, List.sum_cons, List.length_cons]
    omega

theorem joinLines_length_le {ls' ls : List (List Char)}
    (h : List.Sublist ls' ls) :
    (joinLines ls').length ≤ (joinLines ls).length := by
  rw [joinLines_length, joinLines_length]
  have h1 : (ls'.map List.length).sum ≤ (ls.map List.length).sum :=
    List.Sublist.sum_le_sum (h.map List.length) (by simp)
  have h2 : ls'.length ≤ ls.length := h.length_le
  omega

theorem remove_signature_length_le (text : List Char) :
    (remove_signature text).length ≤ text.length := by
  cases hf : (splitLines text).findIdx? signatureMarkerAt with
  | none =>
    have heq : remove_signature text = text := by
      show (match List.findIdx? signatureMarkerAt (splitLines text) with
            | some i => pyRstrip (joinLines (List.take i (splitLines text)))
            | none => text) = text
      rw [hf]
    rw [heq]
  | some i =>
    have heq : remove_signature text =
        pyRstrip (joinLines ((splitLines text).take i)) := by
      show (match List.findIdx? signatureMarkerAt (splitLines text) with
            | some j => pyRstrip (joinLines (List.take j (splitLines text)))
            | none => text) = pyRstrip (joinLines ((splitLines text).take i))
      rw [hf]
    rw [heq]
    calc (pyRstrip (joinLines ((splitLines text).take i))).length
        ≤ (joinLines ((splitLines text).take i)).length := pyRstrip_length_le _
      _ ≤ (joinLines (splitLines text)).length :=
        joinLines_length_le (List.take_sublist ..)
      _ = text.length := by rw [joinLines_splitLines]

theorem extract_effective_content_length_le (text : List Char) :
    (extract_effective_content text).length ≤ text.length := by
  show (pyStrip (collapseNewlines (joinLines
    ((splitLines (remove_signature text)).filter
      (fun l => !is_quote_line l))))).length ≤ text.length
  calc (pyStrip (collapseNewlines (joinLines
        ((splitLines (remove_signature text)).filter
          (fun l => !is_quote_line l))))).length
      ≤ (collapseNewlines (joinLines
          ((splitLines (remove_signature text)).filter
            (fun l => !is_quote_line l)))).length := pyStrip_length_le _
    _ ≤ (joinLines ((splitLines (remove_signature text)).filter
          (fun l => !is_quote_line l))).length := collapseNewlines_length_le _
    _ ≤ (joinLines (splitLines (remove_signature text))).length :=
        joinLines_length_le (List.filter_sublist _)
    _ = (remove_signature text).length := by rw [joinLines_splitLines]
    _ ≤ text.length := remove_signature_length_le text

/-- **C4**: every record's quote fields satisfy the invariants:
`body_effective` never exceeds `body_full` in length, `quote_percentage`
equals `quoted_line_count / total_line_count`, lies in `[0, 1]`, and is `0`
for the empty body; `is_mostly_quoted` holds iff `quote_percentage` strictly
exceeds the threshold (default `0.8`), exactly as `parse` wires it. -/
theorem claim_record_invariants :
    ∀ (text : List Char) (th : ℚ),
      (analyze text).body_effective.length ≤ text.length ∧
      (analyze text).quote_percentage =
        ((analyze text).quoted_lines : ℚ) / ((analyze text).total_lines : ℚ) ∧
      0 ≤ (analyze text).quote_percentage ∧
      (analyze text).quote_percentage ≤ 1 ∧
      (text = [] → (analyze text).quote_percentage = 0) ∧
      (is_mostly_quoted th text = true ↔
        th < (analyze text).quote_percentage) := by
  intro text th
  have hpos : 0 < (splitLines text).length :=
    List.length_pos.mpr (splitLines_ne_nil text)
  have hqp : (analyze text).quote_percentage =
      (((splitLines text).filter is_quote_line).length : ℚ) /
        ((splitLines text).length : ℚ) := by
    show (if 0 < (splitLines text).length
      then (((splitLines text).filter is_quote_line).length : ℚ) /
        ((splitLines text).length : ℚ)
      else 0) = _
    rw [if_pos hpos]
  refine ⟨extract_effective_content_length_le text, hqp, ?_, ?_, ?_, ?_⟩
  · rw [hqp]
    positivity
  · rw [hqp, div_le_one (by exact_mod_cast hpos)]
    exact_mod_cast List.length_filter_le _ _
  · intro h
    subst h
    rw [hqp]
    have hz : (splitLines ([] : List Char)).filter is_quote_line = [] := by
      decide
    rw [hz]
    simp
  · unfold is_mostly_quoted
    rw [decide_eq_true_eq]

theorem claim_record_invariants_witness :
    (analyze ([] : List Char)).quote_percentage = 0 :=
  (claim_record_invariants [] (4/5)).2.2.2.2.1 rfl

/-! ### Claim C6: idempotence of effective-content extraction -/

theorem collapseAux_of_runsOk (s : List Char) : ∀ (n : Nat),
    runsOk n s = true → collapseAux n s = List.replicate n '\n' ++ s := by
  induction s with
  | nil =>
    intro n h
    have hn : n ≤ 2 := by simpa [runsOk] using h
    show emitRun n = _
    unfold emitRun
    rw [if_neg (by omega)]
    simp
  | cons c rest ih =>
    intro n h
    unfold collapseAux
    by_cases hc : c = '\n'
    · rw [if_pos hc]
      have hr : runsOk (n + 1) rest = true := by
        unfold runsOk at h
        rwa [if_pos hc] at h
      rw [ih (n + 1) hr, hc]
      rw [List.replicate_succ' n '\n']
      simp
    · rw [if_neg hc]
      have h2 : (decide (n ≤ 2) && runsOk 0 rest) = true := by
        unfold runsOk at h
        rwa [if_neg hc] at h
      rw [Bool.and_eq_true] at h2
      have hn : n ≤ 2 := by simpa using h2.1
      rw [ih 0 h2.2]
      unfold emitRun
      rw [if_neg (by omega)]
      simp

/-- **C6 counterexample**: `extract_effective_content` is not idempotent.
For the input `" Thanks"` the first pass keeps the line (the signature
pattern `^Thanks` does not match after the leading space) and then
`strip()`s the space, producing `"Thanks"`; the second pass sees `^Thanks`
as a signature marker and removes everything. -/
theorem claim_effective_content_not_idempotent :
    extract_effective_content (extract_effective_content " Thanks".data) ≠
      extract_effective_content " Thanks".data := by
  decide

/-- **C6 amended**: `extract_effective_content` fixes every already-clean
text — no line matches the signature pattern, no line is classified as
quoted, there is no run of three or more newlines, and the text carries no
leading/trailing whitespace.  (Full idempotence fails: stripping leading
whitespace can expose a signature marker or attribution at the start of the
output, as the counterexample shows.) -/
theorem claim_effective_content_fixed_point (text : List Char)
    (hmark : ∀ l ∈ splitLines text, signatureMarkerAt l = false)
    (hquote : ∀ l ∈ splitLines text, is_quote_line l = false)
    (hruns : runsOk 0 text = true)
    (hstrip : pyStrip text = text) :
    extract_effective_content text = text := by
  have hfind : (splitLines text).findIdx? signatureMarkerAt = none :=
    List.findIdx?_eq_none_iff.mpr hmark
  have hsig : remove_signature text = text := by
    show (match List.findIdx? signatureMarkerAt (splitLines text) with
          | some j => pyRstrip (joinLines (List.take j (splitLines text)))
          | none => text) = text
    rw [hfind]
  have hfilter : (splitLines text).filter (fun l => !is_quote_line l) =
      splitLines text :=
    List.filter_eq_self.mpr (fun l hl => by rw [hquote l hl]; rfl)
  show pyStrip (collapseNewlines (joinLines
    ((splitLines (remove_signature text)).filter (fun l => !is_quote_line l))))
    = text
  rw [hsig, hfilter, joinLines_splitLines]
  show pyStrip (collapseAux 0 text) = text
  rw [collapseAux_of_runsOk text 0 hruns]
  simpa using hstrip

theorem claim_effective_content_fixed_point_witness :
    extract_effective_content "real content".data = "real content".data :=
  claim_effective_content_fixed_point _ (by decide) (by decide) (by decide)
    (by decide)

/-! ### Claim C7: quote-line classification -/

/-- **C7 counterexample**: the attribution alternative `.+?\s+wrote:` is not
anchored at the end of the line, so `"Bob wrote: I disagree"` is classified
as quoted even though it neither ends in `wrote:` nor begins with
`On ... wrote:` nor echoes a `From:`/`Sent:` header. -/
theorem claim_is_quote_line_counterexample :
    is_quote_line "Bob wrote: I disagree".data = true ∧
    claimQuoteLine "Bob wrote: I disagree".data = false := by
  decide

theorem any_range_iff {n : Nat} {f : Nat → Bool} :
    (List.range n).any f = true ↔ ∃ p, p < n ∧ f p = true := by
  rw [List.any_eq_true]
  constructor
  · rintro ⟨p, hp, hf⟩
    exact ⟨p, List.mem_range.mp hp, hf⟩
  · rintro ⟨p, hp, hf⟩
    exact ⟨p, List.mem_range.mpr hp, hf⟩

theorem startsWithCI_drop_lt {pat ln : List Char} {p : Nat} (hpat : pat ≠ [])
    (h : startsWithCI pat (ln.drop p) = true) : p < ln.length := by
  by_contra hge
  push_neg at hge
  have hd : ln.drop p = [] := List.drop_of_length_le hge
  rw [hd] at h
  unfold startsWithCI at h
  rw [List.map_nil] at h
  cases pat with
  | nil => exact hpat rfl
  | cons a t => simp [List.isPrefixOf] at h

theorem quotePrefixMatch_iff (ln : List Char) :
    quotePrefixMatch ln = true ↔
      ∃ c cs, ln.dropWhile pyIsSpace = c :: cs ∧ (c = '>' ∨ c = '|') := by
  unfold quotePrefixMatch
  cases hd : ln.dropWhile pyIsSpace with
  | nil =>
    constructor
    · intro h; cases h
    · rintro ⟨c, cs, hcs, -⟩; cases hcs
  | cons c cs =>
    constructor
    · intro h
      exact ⟨c, cs, rfl, by simpa using h⟩
    · rintro ⟨c', cs', hcs, hor⟩
      obtain ⟨rfl, rfl⟩ : c' = c ∧ cs' = cs := by
        constructor <;> [exact (List.cons.injEq .. ▸ hcs).1.symm;
          exact (List.cons.injEq .. ▸ hcs).2.symm]
      simpa using hor

theorem altWrote_iff (ln : List Char) :
    altWrote ln = true ↔
      ∃ p, 2 ≤ p ∧ (ln[p-1]?.any pyIsSpace) = true ∧
        startsWithCI "wrote:".data (ln.drop p) = true := by
  unfold altWrote
  rw [any_range_iff]
  constructor
  · rintro ⟨p, -, hf⟩
    rw [Bool.and_eq_true, Bool.and_eq_true] at hf
    exact ⟨p, by simpa using hf.1.1, hf.1.2, hf.2⟩
  · rintro ⟨p, h2, hsp, hw⟩
    refine ⟨p, startsWithCI_drop_lt (by decide) hw, ?_⟩
    rw [Bool.and_eq_true, Bool.and_eq_true]
    exact ⟨⟨by simpa using h2, hsp⟩, hw⟩

theorem altOn_iff (ln : List Char) :
    altOn ln = true ↔
      (startsWithCI "on".data ln = true ∧
        ((ln.drop 2).head?.any pyIsSpace) = true ∧
        ∃ p, 3 ≤ p ∧ ((ln.drop 2)[p-1]?.any pyIsSpace) = true ∧
          startsWithCI "wrote:".data ((ln.drop 2).drop p) = true) := by
  unfold altOn
  rw [Bool.and_eq_true, Bool.and_eq_true]
  constructor
  · rintro ⟨hon, hsp, hany⟩
    rw [any_range_iff] at hany
    obtain ⟨p, -, hf⟩ := hany
    rw [Bool.and_eq_true, Bool.and_eq_true] at hf
    exact ⟨hon, hsp, p, by simpa using hf.1.1, hf.1.2, hf.2⟩
  · rintro ⟨hon, hsp, p, h3, hpsp, hw⟩
    refine ⟨hon, hsp, ?_⟩
    rw [any_range_iff]
    refine ⟨p, startsWithCI_drop_lt (by decide) hw, ?_⟩
    rw [Bool.and_eq_true, Bool.and_eq_true]
    exact ⟨⟨by simpa using h3, hpsp⟩, hw⟩

theorem attributionMatch_iff (ln : List Char) :
    attributionMatch ln = true ↔
      (altOn ln = true ∨ altWrote ln = true ∨
        (startsWithCI "from:".data ln = true ∧ 6 ≤ ln.length) ∨
        (startsWithCI "sent:".data ln = true ∧ 6 ≤ ln.length)) := by
  unfold attributionMatch altFrom altSent
  simp only [Bool.or_eq_true, Bool.and_eq_true, decide_eq_true_eq]
  tauto

/-- **C7 amended**: for a single line (no newline), `is_quote_line` is true
iff the line is not blank and either (a) after leading whitespace it starts
with `>` or `|`, or (b) it begins with `On`+whitespace and contains `wrote:`
preceded by whitespace later in the line, or contains `wrote:`
(case-insensitive) immediately preceded by a whitespace character that is
not the line's first character — *anywhere* in the line, not only at its
end — or begins with `From:`/`Sent:` followed by at least one character. -/
theorem claim_is_quote_line_amended (ln : List Char) (hnl : '\n' ∉ ln) :
    is_quote_line ln = true ↔
      (pyStrip ln ≠ [] ∧
        ((∃ c cs, ln.dropWhile pyIsSpace = c :: cs ∧ (c = '>' ∨ c = '|')) ∨
         ((startsWithCI "on".data ln = true ∧
            ((ln.drop 2).head?.any pyIsSpace) = true ∧
            ∃ p, 3 ≤ p ∧ ((ln.drop 2)[p-1]?.any pyIsSpace) = true ∧
              startsWithCI "wrote:".data ((ln.drop 2).drop p) = true) ∨
          (∃ p, 2 ≤ p ∧ (ln[p-1]?.any pyIsSpace) = true ∧
            startsWithCI "wrote:".data (ln.drop p) = true) ∨
          (startsWithCI "from:".data ln = true ∧ 6 ≤ ln.length) ∨
          (startsWithCI "sent:".data ln = true ∧ 6 ≤ ln.length)))) := by
  unfold is_quote_line
  by_cases hs : pyStrip ln = []
  · rw [if_pos hs]
    simp [hs]
  · rw [if_neg hs]
    rw [Bool.or_eq_true, quotePrefixMatch_iff, attributionMatch_iff,
      altOn_iff, altWrote_iff]
    constructor
    · intro h
      exact ⟨hs, h⟩
    · rintro ⟨-, h⟩
      exact h

theorem claim_is_quote_line_amended_witness :
    is_quote_line "> hello".data = true :=
  (claim_is_quote_line_amended "> hello".data (by decide)).mpr
    ⟨by decide, Or.inl ⟨'>', " hello".data, by decide, Or.inl rfl⟩⟩

/-! ### Claim C5: commit-reference extraction -/

theorem head?_dropWhile_not (p : Char → Bool) : ∀ l : List Char,
    ((l.dropWhile p).head?.all fun c => !p c) = true
  | [] => rfl
  | c :: l => by
    rw [List.dropWhile_cons]
    by_cases hc : p c = true
    · rw [if_pos hc]
      exact head?_dropWhile_not p l
    · rw [if_neg hc]
      have hc' : p c = false := by rwa [Bool.not_eq_true] at hc
      simp [hc']

theorem wordRuns_cons_not {c : Char} {s : List Char} (h : isWordChar c = false) :
    wordRuns (c :: s) = wordRuns s := by
  rw [wordRuns.eq_def]
  simp [h]

theorem wordRuns_cons_word : ∀ (s : List Char) (c : Char), isWordChar c = true →
    wordRuns (c :: s) =
      ((c :: s).takeWhile isWordChar) :: wordRuns ((c :: s).dropWhile isWordChar)
  | [], c, hc => by
    simp [wordRuns, hc, List.takeWhile_cons, List.dropWhile_cons]
  | d :: t, c, hc => by
    have htw : (c :: d :: t).takeWhile isWordChar =
        c :: (d :: t).takeWhile isWordChar := by
      rw [List.takeWhile_cons, if_pos hc]
    have hdw : (c :: d :: t).dropWhile isWordChar =
        (d :: t).dropWhile isWordChar := by
      rw [List.dropWhile_cons, if_pos hc]
    by_cases hd : isWordChar d = true
    · have ih := wordRuns_cons_word t d hd
      have hstep : wordRuns (c :: d :: t) =
          (match wordRuns (d :: t) with
           | r :: rs => (c :: r) :: rs
           | [] => [[c]]) := by
        simp only [wordRuns, hc, hd, if_true]
      rw [hstep, ih, htw, hdw]
    · have hd' : isWordChar d = false := by rwa [Bool.not_eq_true] at hd
      have hstep : wordRuns (c :: d :: t) = [c] :: wordRuns (d :: t) := by
        simp only [wordRuns, hc, hd', if_true, Bool.false_eq_true, if_false]
      rw [hstep, htw, hdw]
      rw [List.takeWhile_cons, if_neg (by simp [hd']), List.dropWhile_cons,
        if_neg (by simp [hd'])]

theorem wordRuns_sound : ∀ (n : Nat) (s : List Char), s.length ≤ n →
    ∀ v ∈ wordRuns s,
      v ≠ [] ∧ (∀ c ∈ v, isWordChar c = true) ∧
      ∃ pre post, s = pre ++ v ++ post ∧
        (pre.getLast?.all fun c => !isWordChar c) = true ∧
        (post.head?.all fun c => !isWordChar c) = true := by
  intro n
  induction n with
  | zero =>
    intro s hs v hv
    have hnil : s = [] := List.length_eq_zero.mp (Nat.le_zero.mp hs)
    subst hnil
    simp [wordRuns] at hv
  | succ n ih =>
    intro s hs v hv
    cases s with
    | nil => simp [wordRuns] at hv
    | cons c s' =>
      by_cases hc : isWordChar c = true
      · rw [wordRuns_cons_word s' c hc] at hv
        rcases List.mem_cons.mp hv with rfl | hv'
        · refine ⟨?_, fun d hd => List.mem_takeWhile_imp hd,
            [], (c :: s').dropWhile isWordChar, ?_, rfl, ?_⟩
          · rw [List.takeWhile_cons, if_pos hc]
            simp
          · rw [List.nil_append, List.takeWhile_append_dropWhile]
          · exact head?_dropWhile_not _ _
        · have hlen : ((c :: s').dropWhile isWordChar).length ≤ n := by
            rw [List.dropWhile_cons, if_pos hc]
            have h1 : (s'.dropWhile isWordChar).length ≤ s'.length :=
              (List.dropWhile_sublist isWordChar).length_le
            have h2 : s'.length + 1 ≤ n + 1 := by simpa using hs
            omega
          obtain ⟨hne, hall, pre', post', heq, hpre, hpost⟩ := ih _ hlen v hv'
          have hpre_ne : pre' ≠ [] := by
            intro h0
            subst h0
            rw [List.nil_append] at heq
            cases v with
            | nil => exact hne rfl
            | cons a v' =>
              have h1 : isWordChar a = true := hall a (List.mem_cons_self ..)
              have h2 := head?_dropWhile_not isWordChar (c :: s')
              rw [heq] at h2
              simp [h1] at h2
          refine ⟨hne, hall,
            (c :: s').takeWhile isWordChar ++ pre', post', ?_, ?_, hpost⟩
          · calc c :: s'
                = (c :: s').takeWhile isWordChar ++
                    (c :: s').dropWhile isWordChar :=
                  (List.takeWhile_append_dropWhile ..).symm
              _ = (c :: s').takeWhile isWordChar ++ (pre' ++ v ++ post') := by
                  rw [heq]
              _ = ((c :: s').takeWhile isWordChar ++ pre') ++ v ++ post' := by
                  simp [List.append_assoc]
          · rw [List.getLast?_append_of_ne_nil _ hpre_ne]
            exact hpre
      · have hc' : isWordChar c = false := by rwa [Bool.not_eq_true] at hc
        rw [wordRuns_cons_not hc'] at hv
        have hlen : s'.length ≤ n := by
          have : s'.length + 1 ≤ n + 1 := by simpa using hs
          omega
        obtain ⟨hne, hall, pre', post', heq, hpre, hpost⟩ := ih s' hlen v hv
        refine ⟨hne, hall, c :: pre', post', by rw [heq]; rfl, ?_, hpost⟩
        cases pre' with
        | nil => simp [hc']
        | cons a t =>
          rw [show (c :: a :: t).getLast? = (a :: t).getLast? from rfl]
          exact hpre

theorem wordRuns_complete_base (v post : List Char) (hv : v ≠ [])
    (hall : ∀ c ∈ v, isWordChar c = true)
    (hhead : (post.head?.all fun c => !isWordChar c) = true) :
    v ∈ wordRuns (v ++ post) := by
  cases v with
  | nil => exact absurd rfl hv
  | cons a v' =>
    have ha : isWordChar a = true := hall a (List.mem_cons_self ..)
    rw [show (a :: v') ++ post = a :: (v' ++ post) from rfl]
    rw [wordRuns_cons_word (v' ++ post) a ha]
    have htw : (a :: (v' ++ post)).takeWhile isWordChar = a :: v' := by
      rw [show a :: (v' ++ post) = (a :: v') ++ post from rfl]
      rw [takeWhile_append_all (a :: v') post hall]
      cases post with
      | nil => simp
      | cons b post' =>
        have hb : isWordChar b = false := by simpa using hhead
        rw [List.takeWhile_cons, if_neg (by simp [hb])]
        simp
    rw [htw]
    exact List.mem_cons_self ..

theorem wordRuns_complete : ∀ (n : Nat) (pre : List Char), pre.length ≤ n →
    ∀ (v post : List Char), v ≠ [] → (∀ c ∈ v, isWordChar c = true) →
      (pre.getLast?.all fun c => !isWordChar c) = true →
      (post.head?.all fun c => !isWordChar c) = true →
      v ∈ wordRuns (pre ++ v ++ post) := by
  intro n
  induction n with
  | zero =>
    intro pre hpre v post hv hall hlast hhead
    have hnil : pre = [] := List.length_eq_zero.mp (Nat.le_zero.mp hpre)
    subst hnil
    rw [List.nil_append]
    exact wordRuns_complete_base v post hv hall hhead
  | succ n ih =>
    intro pre hpre v post hv hall hlast hhead
    cases pre with
    | nil =>
      rw [List.nil_append]
      exact wordRuns_complete_base v post hv hall hhead
    | cons a pre' =>
      by_cases ha : isWordChar a = true
      · have hdw_ne : (a :: pre').dropWhile isWordChar ≠ [] := by
          intro h0
          have hallw : ∀ x ∈ a :: pre', isWordChar x := by
            rw [← List.dropWhile_eq_nil_iff]
            exact h0
          obtain ⟨b, hb⟩ : ∃ b, (a :: pre').getLast? = some b :=
            ⟨(a :: pre').getLast (by simp), List.getLast?_eq_getLast _ _⟩
          have hbw : isWordChar b = true :=
            hallw b (List.mem_of_mem_getLast? hb)
          rw [hb] at hlast
          simp [hbw] at hlast
        have hlen2 : ((a :: pre').dropWhile isWordChar).length ≤ n := by
          rw [List.dropWhile_cons, if_pos ha]
          have h1 : (pre'.dropWhile isWordChar).length ≤ pre'.length :=
            (List.dropWhile_sublist isWordChar).length_le
          have h2 : pre'.length + 1 ≤ n + 1 := by simpa using hpre
          omega
        have hlast2 : (((a :: pre').dropWhile isWordChar).getLast?.all
            fun c => !isWordChar c) = true := by
          obtain ⟨t, ht⟩ :=
            (List.dropWhile_suffix isWordChar :
              List.IsSuffix ((a :: pre').dropWhile isWordChar) (a :: pre'))
          have := List.getLast?_append_of_ne_nil t hdw_ne
          rw [ht] at this
          rw [← this]
          exact hlast
        have hrec := ih _ hlen2 v post hv hall hlast2 hhead
        rw [show (a :: pre') ++ v ++ post = a :: (pre' ++ v ++ post) from rfl]
        rw [wordRuns_cons_word _ a ha]
        apply List.mem_cons_of_mem
        have hsplit : (a :: (pre' ++ v ++ post)).dropWhile isWordChar =
            (a :: pre').dropWhile isWordChar ++ (v ++ post) := by
          rw [show a :: (pre' ++ v ++ post) = (a :: pre') ++ (v ++ post) from
            by simp]
          rw [List.dropWhile_append]
          rw [if_neg (by simpa [List.isEmpty_iff] using hdw_ne)]
        rw [hsplit, ← List.append_assoc]
        exact hrec
      · have ha' : isWordChar a = false := by rwa [Bool.not_eq_true] at ha
        rw [show (a :: pre') ++ v ++ post = a :: (pre' ++ v ++ post) from rfl]
        rw [wordRuns_cons_not ha']
        have hlen : pre'.length ≤ n := by
          have : pre'.length + 1 ≤ n + 1 := by simpa using hpre
          omega
        apply ih pre' hlen v post hv hall ?_ hhead
        cases pre' with
        | nil => rfl
        | cons b t =>
          rw [show (b :: t).getLast? =
            ((a :: b :: t).getLast? : Option Char) from rfl] at *
          exact hlast

theorem isHexDigit_isWordChar {c : Char} (h : isHexDigit c = true) :
    isWordChar c = true := by
  unfold isHexDigit at h
  unfold isWordChar
  simp only [Bool.or_eq_true, Bool.and_eq_true, decide_eq_true_eq] at h ⊢
  rcases h with (h | h) | h
  · exact Or.inl (Or.inl (Or.inl h))
  · exact Or.inl (Or.inl (Or.inr ⟨h.1, le_trans h.2 (by decide)⟩))
  · exact Or.inl (Or.inr ⟨h.1, le_trans h.2 (by decide)⟩)

/-- **C5 counterexample**: on the text `"00000000"` (an all-zero whole-word
hex run of length 8) the extractor returns the run: the code only excludes
the exact strings `'ffffff'` (six chars, shorter than any candidate),
`'deadbeef'` and `'0000000'` (exactly seven zeros), so "every all-zero run"
is *not* excluded as the claim states. -/
theorem claim_commit_references_counterexample :
    extract_github_commit_references "00000000".data = ["00000000".data] ∧
    "00000000".data.all (fun c => c = '0') = true := by
  decide

/-- **C5 amended**: `extract_github_commit_references` returns, without
duplicates, exactly the whole-word runs (maximal word-character runs with
non-word or text boundaries on both sides) of 7–40 hex characters, excluding
exactly the candidates whose lowercase form is the string `'ffffff'`,
`'deadbeef'` or `'0000000'` — not every all-zero or all-`f` run. -/
theorem claim_commit_references_amended (text : List Char) :
    (extract_github_commit_references text).Nodup ∧
    ∀ v : List Char, v ∈ extract_github_commit_references text ↔
      ((∀ c ∈ v, isHexDigit c = true) ∧ 7 ≤ v.length ∧ v.length ≤ 40 ∧
       (∃ pre post, text = pre ++ v ++ post ∧
         (pre.getLast?.all fun c => !isWordChar c) = true ∧
         (post.head?.all fun c => !isWordChar c) = true) ∧
       v.map Char.toLower ∉
         ["ffffff".data, "deadbeef".data, "0000000".data]) := by
  constructor
  · exact List.nodup_dedup _
  · intro v
    unfold extract_github_commit_references
    rw [List.mem_dedup, List.mem_filter]
    unfold commitMatches
    rw [List.mem_filter]
    constructor
    · rintro ⟨⟨hrun, hflt⟩, hkeep⟩
      rw [Bool.and_eq_true, Bool.and_eq_true] at hflt
      obtain ⟨⟨hhex, h7⟩, h40⟩ := hflt
      obtain ⟨hne, hallw, pre, post, heq, hpre, hpost⟩ :=
        wordRuns_sound text.length text (le_refl _) v hrun
      refine ⟨fun c hc => List.all_eq_true.mp hhex c hc, by simpa using h7,
        by simpa using h40, ⟨pre, post, heq, hpre, hpost⟩, ?_⟩
      unfold commitKeep at hkeep
      rw [Bool.and_eq_true, Bool.and_eq_true] at hkeep
      intro hmem
      have hcon := List.elem_iff.mpr hmem
      have hk2 : (!(List.elem (v.map Char.toLower)
          ["ffffff".data, "deadbeef".data, "0000000".data])) = true := hkeep.2
      rw [hcon] at hk2
      cases hk2
    · rintro ⟨hhex, h7, h40, ⟨pre, post, heq, hpre, hpost⟩, hexcl⟩
      have hne : v ≠ [] := by
        intro h0
        subst h0
        simp at h7
      have hallw : ∀ c ∈ v, isWordChar c = true :=
        fun c hc => isHexDigit_isWordChar (hhex c hc)
      have hrun : v ∈ wordRuns text := by
        rw [heq]
        exact wordRuns_complete pre.length pre (le_refl _) v post hne hallw
          hpre hpost
      refine ⟨⟨hrun, ?_⟩, ?_⟩
      · rw [Bool.and_eq_true, Bool.and_eq_true]
        exact ⟨⟨List.all_eq_true.mpr hhex, by simpa using h7⟩,
          by simpa using h40⟩
      · unfold commitKeep
        rw [Bool.and_eq_true, Bool.and_eq_true]
        refine ⟨⟨by simpa using h7, by simpa using h40⟩, ?_⟩
        have hcon : (["ffffff".data, "deadbeef".data,
            "0000000".data].contains (v.map Char.toLower)) = false := by
          rw [← Bool.not_eq_true]
          intro hc
          exact hexcl (List.elem_iff.mp hc)
        rw [hcon]
        rfl
